import Mathlib

/-!
Shallow embedding of the mutation/amplification engine of `src/Mutation.py`
(class `Mutation`) and the distribution helpers it relies on.

Python floats are modelled as exact rationals (`ℚ`) where the code only
adds, multiplies, divides and truncates, and as reals (`ℝ`) where the code
calls `exp`.  `int(x)` is Python truncation toward zero.  The shared
`amplfdSeqs` dictionary (sequence index -> numpy record) is modelled as a
partial map `ℤ → Option (List ℚ)`; record slot 0 is the copy count, slot 2
the bias score, slots 3.. the per-cycle probabilities some callers append.
Binomial draws are modelled by oracle functions supplying the drawn values.
-/

/-- Python `int(x)`: truncation toward zero. -/
def pyInt (q : ℚ) : ℤ := if q < 0 then -⌊-q⌋ else ⌊q⌋

/-- The three-way routing of one mutation-count entry, shared by the
`mutFreq` branch chains of `generate_mutants` (src/Mutation.py lines
165-208) and `generate_mutants_new` (lines 301-344). -/
inductive MutRoute where
  | skip
  | fine
  | bulk
deriving DecidableEq, Repr

/-- Branch selection of `generate_mutants` (src/Mutation.py lines 165, 167,
208): `if mutFreq == 0: continue / elif mutFreq < 10000: ... / elif
mutFreq > 10000: ...`; a frequency matching no branch falls through the
`elif` chain, so the loop body does nothing for it. -/
def routeLegacy (mutFreq : ℤ) : MutRoute :=
  if mutFreq = 0 then .skip
  else if mutFreq < 10000 then .fine
  else if mutFreq > 10000 then .bulk
  else .skip

/-- Branch selection of `generate_mutants_new` (src/Mutation.py lines 301,
303, 344), textually identical to the legacy chain. -/
def routeNew (mutFreq : ℤ) : MutRoute :=
  if mutFreq = 0 then .skip
  else if mutFreq < 10000 then .fine
  else if mutFreq > 10000 then .bulk
  else .skip

/-- `mutatedPool[mutNum] += 1` (src/Mutation.py line 293): bump the bucket
at index `m` of the frequency array. -/
def bucketBump (a : List ℚ) (m : ℕ) : List ℚ :=
  a.set m (a.getD m 0 + 1)

/-- The sampling-regime accumulation of `generate_mutants_new`
(src/Mutation.py lines 287-293): the drawn Poisson values are filtered for
zero (`muts = muts[muts != 0]`) and each remaining draw `mutNum` increments
`mutatedPool[mutNum]` in place, on top of whatever the array held. -/
def samplingAccum (a : List ℚ) (muts : List ℕ) : List ℚ :=
  (muts.filter (fun m => m ≠ 0)).foldl bucketBump a

/-- The bulk-regime assignment of `generate_mutants_new` (src/Mutation.py
line 282): `mutatedPool = mutNumProbs[1:seqLength+1] * seqPop.sum()`; the
whole array is rebound, ignoring its previous contents.  `probs` stands
for the `mutNumProbs` vector (indices 0..L). -/
def bulkAssign (L : ℕ) (probs : List ℚ) (pop : ℚ) : List ℚ :=
  ((probs.drop 1).take L).map (fun p => p * pop)

/-- One wild-type sequence's effect on the shared `mutatedPool` array in
`generate_mutants_new` (src/Mutation.py lines 277-293): the bulk branch
overwrites the array, the sampling branch accumulates its draws into it. -/
inductive SeqBranch where
  | bulkSeq (probs : List ℚ) (pop : ℚ)
  | samplingSeq (muts : List ℕ)

/-- State transition of the `mutatedPool` array for one wild-type sequence
(`generate_mutants_new`, src/Mutation.py lines 264 and 277-293); the array
is allocated once before the sequence loop and threaded through it. -/
def mutatedPoolStep (L : ℕ) (a : List ℚ) : SeqBranch → List ℚ
  | .bulkSeq probs pop => bulkAssign L probs pop
  | .samplingSeq muts => samplingAccum a muts

/-- The `mutatedPool` contents after processing a list of wild-type
sequences, starting from the initial `np.zeros(seqLength)` array or any
intermediate state (src/Mutation.py lines 264-295). -/
def mutatedPoolRun (L : ℕ) (a : List ℚ) (bs : List SeqBranch) : List ℚ :=
  bs.foldl (mutatedPoolStep L) a

/-- Number of substitutions applied by a fine-grained iteration consuming
bucket index `mutNum` of `mutatedPool`: both entry points draw
`size = mutNum + 1` random positions and nucleotides (src/Mutation.py lines
177-179 and 312-314). -/
def substitutionsAtIndex (mutNum : ℕ) : ℕ := mutNum + 1

/-- One substitution step of the mutant-string construction
(src/Mutation.py lines 317-319): `mutatedSeq[:(pos-1)] + nuc +
mutatedSeq[pos:]` with 1-based `pos`. -/
def substituteAt (s : List Char) (pos : ℕ) (nuc : Char) : List Char :=
  s.take (pos - 1) ++ [nuc] ++ s.drop pos

/-- The full substitution loop (src/Mutation.py lines 315-319): one
substitution per drawn (position, nucleotide) pair. -/
def applySubstitutions (s : List Char) (subs : List (ℕ × Char)) : List Char :=
  subs.foldl (fun t pc => substituteAt t pc.1 pc.2) s

/-- The amplified pool `amplfdSeqs`: a partial map from sequence index to
its numpy record, the record being `[copyCount, distanceScore, biasScore]`
possibly extended with per-cycle probabilities (slots 3..). -/
def Pool : Type := ℤ → Option (List ℚ)

/-- `amplfdSeqs[i] = rec` (dictionary insert / overwrite). -/
def poolSet (p : Pool) (i : ℤ) (rec : List ℚ) : Pool :=
  fun j => if j = i then some rec else p j

/-- `amplfdSeqs[i][0] += v` (in-place copy-count update on an existing
record; absent keys are untouched). -/
def poolBump (p : Pool) (i : ℤ) (v : ℚ) : Pool :=
  fun j =>
    if j = i then (p i).map (fun r => r.set 0 (r.getD 0 0 + v)) else p j

/-- The post-mutation branching counters of the fine-grained path
(src/Mutation.py lines 196-202 and 332-338): starting from
`mutantCount = 1` and `wildTypeCount = 1`, each of the remaining PCR
cycles adds a binomial draw to each counter.  The draw results are
supplied by the oracles `drawM` and `drawW` (step number -> drawn value),
standing for `int(binom(count, prob))`. -/
def branchCounts (drawM drawW : ℕ → ℤ) : ℕ → ℤ × ℤ
  | 0 => (1, 1)
  | n + 1 =>
      let mw := branchCounts drawM drawW n
      (mw.1 + drawM n, mw.2 + drawW n)

/-- One fine-grained mutation event for one copy (src/Mutation.py lines
186-206 of `generate_mutants` and 321-342 of `generate_mutants_new`, which
perform the same update): if the mutant index is absent, insert the record
`[1, mutDist, mutBias]` (legacy inserts `[mutantCount, mutDist, mutBias]`
with `mutantCount = 1`); run the branching loop for the `N - cyc` cycles
after the drawn mutation cycle `cyc`; add the final mutant count to the
mutant record and subtract the final wild-type count from the wild-type
record. -/
def fineCopyEvent (N cyc : ℕ) (drawM drawW : ℕ → ℤ) (wildIdx mutIdx : ℤ)
    (mutDist mutBias : ℚ) (p : Pool) : Pool :=
  let p1 := if (p mutIdx).isSome then p else poolSet p mutIdx [1, mutDist, mutBias]
  let mw := branchCounts drawM drawW (N - cyc)
  poolBump (poolBump p1 mutIdx (mw.1 : ℚ)) wildIdx (-(mw.2 : ℚ))

/-- The fine-grained loop over the copies of one mutation-count bucket
(src/Mutation.py lines 310-342): copy number `k` uses its own drawn cycle
`cycOf k` and its own binomial draws `drawM k` / `drawW k`.  All copies
here target the same mutant index, the case the mass-conservation claim
speaks about. -/
def fineCopies (N : ℕ) (cycOf : ℕ → ℕ) (drawM drawW : ℕ → ℕ → ℤ)
    (wildIdx mutIdx : ℤ) (mutDist mutBias : ℚ) : ℕ → Pool → Pool
  | 0, p => p
  | k + 1, p =>
      fineCopies N cycOf drawM drawW wildIdx mutIdx mutDist mutBias k
        (fineCopyEvent N (cycOf k) (drawM k) (drawW k) wildIdx mutIdx mutDist mutBias p)

/-- `initialMutCount = int(0.333 * mutFreq / seqLength)` (src/Mutation.py
lines 210 and 346). -/
def initialMutCount (L : ℕ) (mutFreq : ℤ) : ℤ :=
  pyInt ((333 / 1000) * (mutFreq : ℚ) / (L : ℚ))

/-- The per-cycle expected transfer of the bulk branch (src/Mutation.py
lines 233-240 and 369-376): `int(cycleNumProb * initialMutCount *
(1 + pcrYld) ** (pcrCycleNum - cycleNum))`. -/
def bulkCycleAmount (N : ℕ) (y : ℚ) (imc : ℤ) (cy : ℕ) (prob : ℚ) : ℤ :=
  pyInt (prob * (imc : ℚ) * (1 + y) ^ (N - cy))

/-- The `enumerate(cycleNumProbs)` loop of the bulk branch: for each cycle
add the expected mutant gain to `mutIdx` and subtract the same amount from
`seqIdx` (src/Mutation.py lines 233-240 and 369-376). -/
def bulkCycleFold (N : ℕ) (y : ℚ) (imc : ℤ) (mutIdx seqIdx : ℤ) :
    ℕ → List ℚ → Pool → Pool
  | _, [], p => p
  | cy, prob :: rest, p =>
      let amt : ℚ := (bulkCycleAmount N y imc cy prob : ℚ)
      bulkCycleFold N y imc mutIdx seqIdx (cy + 1) rest
        (poolBump (poolBump p mutIdx amt) seqIdx (-amt))

/-- One (position, alternate nucleotide) variant of the bulk branch
(src/Mutation.py lines 222-240 and 358-376): the mutant index is obtained
by fixed-radix index arithmetic; a missing mutant record is inserted as
`[0, dist, bias]`; then the per-cycle expected transfers are applied. -/
def bulkVariantStep (L N : ℕ) (y : ℚ) (mdScore biasScore : ℤ → ℚ)
    (seqIdx : ℤ) (imc : ℤ) (probs : List ℚ) (seqPos : ℕ) (oni mni : ℕ)
    (p : Pool) : Pool :=
  if mni = oni then p
  else
    let mutIdx : ℤ := seqIdx + 4 ^ (L - seqPos - 1) * ((mni : ℤ) - (oni : ℤ))
    let p1 := if (p mutIdx).isSome then p
      else poolSet p mutIdx [0, mdScore mutIdx, biasScore mutIdx]
    bulkCycleFold N y imc mutIdx seqIdx 0 probs p1

/-- The whole bulk branch for one mutation-count bucket (src/Mutation.py
lines 208-240 of `generate_mutants` and 344-376 of `generate_mutants_new`):
loop over every sequence position and every alternate nucleotide, skipping
the original one. -/
def bulkEvent (L N : ℕ) (y : ℚ) (mdScore biasScore : ℤ → ℚ)
    (seqArr : List ℕ) (seqIdx : ℤ) (mutFreq : ℤ) (probs : List ℚ)
    (p : Pool) : Pool :=
  let imc := initialMutCount L mutFreq
  (List.range L).foldl
    (fun pl seqPos =>
      (List.range 4).foldl
        (fun pl2 mni =>
          bulkVariantStep L N y mdScore biasScore seqIdx imc probs seqPos
            (seqArr.getD seqPos 0) mni pl2)
        pl)
    p

/-- Copy-count monotonicity at key `k` between two pool states: whenever
`k` holds a record in `p`, it holds one in `q` whose copy count is at
least as large. -/
def MonoAt (k : ℤ) (p q : Pool) : Prop :=
  ∀ r, p k = some r → ∃ r', q k = some r' ∧ r.getD 0 0 ≤ r'.getD 0 0

/-- The per-trial success probability of the legacy branching draws
(src/Mutation.py lines 198-202): `pcrYld + amplfdSeqs[idx][2]`, with no
clamp. -/
def branchProbLegacy (pcrYld biasScore : ℚ) : ℚ := pcrYld + biasScore

/-- The per-trial success probability of the branching draws of
`generate_mutants_new` (src/Mutation.py lines 334-338):
`min(0.99999, pcrYld + amplfdSeqs[idx][2])`. -/
def branchProbNew (pcrYld biasScore : ℚ) : ℚ :=
  min (99999 / 100000) (pcrYld + biasScore)

/-- The per-trial success probability of the population-trajectory draw of
`generate_mutants_new` (src/Mutation.py line 272):
`min(0.99999, pcrYld + amplfdSeqs[seqIdx][2])`. -/
def trajectoryProb (pcrYld biasScore : ℚ) : ℚ :=
  min (99999 / 100000) (pcrYld + biasScore)

/-- Which external scorer `choose_dist` partially applies. -/
inductive ScorerKind where
  | hamming
  | nodist
  | basepair
  | loop
deriving DecidableEq, Repr

/-- Result of `choose_dist`: the scorer returned (none when the function
falls off the end), whether `RNA.fold` was executed, and whether
`utils.apt_loopFinder` was executed. -/
structure DistChoice where
  scorer : Option ScorerKind
  folded : Bool
  loopSearched : Bool
deriving DecidableEq, Repr

/-- `Mutation.choose_dist` (src/Mutation.py lines 126-138): `hamming` and
`random` return before the fold; every other name first folds the aptamer,
`basepair` then returns; every remaining name also runs the loop finder,
`loop` then returns; an unrecognized name falls off the end of the
function, returning `None` with both side computations performed. -/
def choose_dist (distname : String) : DistChoice :=
  if distname = "hamming" then ⟨some .hamming, false, false⟩
  else if distname = "random" then ⟨some .nodist, false, false⟩
  else if distname = "basepair" then ⟨some .basepair, true, false⟩
  else if distname = "loop" then ⟨some .loop, true, true⟩
  else ⟨none, true, true⟩

/-- `scipy.stats.rv_discrete(values=(vals, probs))` as used by
`generate_mutants` (src/Mutation.py lines 158-159): construction succeeds
only when the two arrays have the same length and the probabilities sum to
one; otherwise scipy raises, modelled as `none`. -/
def rv_discrete (vals : List ℚ) (probs : List ℚ) : Option (List (ℚ × ℚ)) :=
  if vals.length = probs.length ∧ probs.sum = 1 then some (vals.zip probs)
  else none

/-- The cycle-number probabilities `generate_mutants` reads for a sequence:
`amplfdSeqs[seqIdx][3:]` (src/Mutation.py line 155). -/
def cycleNumProbsOf (rec : List ℚ) : List ℚ := rec.drop 3

/-- The cycle-number distribution `generate_mutants` builds
(src/Mutation.py lines 155-159): `rv_discrete` over
`np.arange(pcrCycleNum)` and the record slice. -/
def legacyCycleDist (N : ℕ) (rec : List ℚ) : Option (List (ℚ × ℚ)) :=
  rv_discrete ((List.range N).map (fun n => (n : ℚ))) (cycleNumProbsOf rec)

/-- `Mutation.get_mutation_probabilities_original` (src/Mutation.py lines
77-84): entry `m` of the vector is `lamb ** m * exp(-lamb) / fact(m)` with
`lamb = seqLength * errorRate`, for `m` in `range(seqLength + 1)`. -/
noncomputable def poissonProbs (L : ℕ) (e : ℝ) : List ℝ :=
  (List.range (L + 1)).map
    (fun m => ((L : ℝ) * e) ^ m * Real.exp (-((L : ℝ) * e)) / (Nat.factorial m))

/-- The slot `k ≥ 1` of `Mutation.get_mutation_probabilities`
(src/Mutation.py lines 63-69): the sum over cycles `n = 1..N` of
`exp(-n*e*L) * (n*e*L)**k * fact(N) * y**n /
(fact(k) * fact(n) * fact(N-n) * (1+y)**n)`. -/
noncomputable def pcrSlot (L N : ℕ) (e y : ℝ) (k : ℕ) : ℝ :=
  ∑ n ∈ Finset.Icc 1 N,
    Real.exp (-((n : ℝ) * e * L)) * ((n : ℝ) * e * L) ^ k *
        (Nat.factorial N) * y ^ n /
      ((Nat.factorial k) * (Nat.factorial n) * (Nat.factorial (N - n)) *
        (1 + y) ^ n)

/-- The PCR-aware mutation-count vector of
`Mutation.get_mutation_probabilities` (src/Mutation.py lines 58-72): slots
1..L hold `pcrSlot`, slot 0 is one minus their accumulated sum (lines
70-71). -/
noncomputable def pcrVec (L N : ℕ) (e y : ℝ) : List ℝ :=
  (1 - ((List.range L).map (fun m => pcrSlot L N e y (m + 1))).sum) ::
    (List.range L).map (fun m => pcrSlot L N e y (m + 1))

/-- C1 (amended): in both entry points the branch chains are identical;
a frequency `f` with `0 < f < 10000` is routed to the fine-grained path
and `f > 10000` to the bulk path, but `f = 10000` exactly matches neither
branch and the mutation event is silently skipped. -/
theorem generate_mutants_route_boundary (f : ℤ) :
    routeLegacy f = routeNew f ∧
    (0 < f → f < 10000 → routeLegacy f = MutRoute.fine) ∧
    (10000 < f → routeLegacy f = MutRoute.bulk) ∧
    routeLegacy 10000 = MutRoute.skip := by
  refine ⟨rfl, fun h1 h2 => ?_, fun h => ?_, by decide⟩
  · simp only [routeLegacy]
    rw [if_neg (by omega), if_pos h2]
  · simp only [routeLegacy]
    rw [if_neg (by omega), if_neg (by omega), if_pos h]

/-- Witness for C1: concrete routings at 5 and 20000. -/
theorem generate_mutants_route_boundary_witness :
    (0 : ℤ) < 5 ∧ (5 : ℤ) < 10000 ∧ routeLegacy 5 = MutRoute.fine ∧
      (10000 : ℤ) < 20000 ∧ routeLegacy 20000 = MutRoute.bulk :=
  ⟨by decide, by decide,
    (generate_mutants_route_boundary 5).2.1 (by decide) (by decide),
    by decide, (generate_mutants_route_boundary 20000).2.2.1 (by decide)⟩

/-- Counterexample for C1 as stated: a mutation count with frequency
exactly 10000 is not routed to the bulk path in either entry point - it is
skipped. -/
theorem route_at_threshold_not_bulk :
    routeLegacy 10000 = MutRoute.skip ∧ routeNew 10000 = MutRoute.skip ∧
      MutRoute.skip ≠ MutRoute.bulk := by decide

/-- C3 (code defect evaluated at the failing input): the sampling regime
buckets a Poisson draw of 1 at index 1 of `mutatedPool`, but the consuming
fine-grained iteration for index 1 applies 2 substitutions, not the 1 the
claim (and the bulk branch's own convention, which stores the expected
count of (i+1)-mutation copies at index i) requires. -/
theorem sampling_bucket_consumption_mismatch :
    samplingAccum (List.replicate 3 0) [1] = [0, 1, 0] ∧
      substitutionsAtIndex 1 = 2 ∧ substitutionsAtIndex 1 ≠ 1 ∧
      bulkAssign 3 [5, 7, 11, 13] 1 = [7, 11, 13] := by
  refine ⟨?_, rfl, by decide, ?_⟩
  · norm_num [samplingAccum, bucketBump, List.replicate]
  · norm_num [bulkAssign]

/-- C8 (amended): all binomial call sites of `generate_mutants_new` clamp
the success probability to `min(0.99999, pcrYld + biasScore)`, which is
strictly below 1 for every yield and bias score; the branching draws of
the legacy `generate_mutants` pass the unclamped sum, which can reach 1 or
more. -/
theorem binomial_probability_clamping :
    (∀ y b : ℚ, branchProbNew y b < 1 ∧ trajectoryProb y b < 1) ∧
      (∃ y b : ℚ, 1 ≤ branchProbLegacy y b) := by
  refine ⟨fun y b => ⟨?_, ?_⟩, ⟨1, 0, by norm_num [branchProbLegacy]⟩⟩
  · exact lt_of_le_of_lt (min_le_left _ _) (by norm_num)
  · exact lt_of_le_of_lt (min_le_left _ _) (by norm_num)

/-- Counterexample for C8 as stated: with yield 0.9 and bias score 0.2 the
legacy branching draw uses probability 1.1 - not clamped, not strictly
below 1, and different from the clamped value the claim asserts. -/
theorem legacy_branch_probability_unclamped :
    branchProbLegacy (9/10) (2/10) = 11/10 ∧
      ¬ branchProbLegacy (9/10) (2/10) < 1 ∧
      branchProbLegacy (9/10) (2/10) ≠ branchProbNew (9/10) (2/10) := by
  norm_num [branchProbLegacy, branchProbNew, min_def]

/-- C9 (amended): an unrecognized strategy name is not rejected:
`choose_dist` folds the aptamer, runs the loop finder, and returns no
scorer at all; no error is raised at configuration time. -/
theorem choose_dist_unknown_name_behavior (name : String)
    (h1 : name ≠ "hamming") (h2 : name ≠ "random") (h3 : name ≠ "basepair")
    (h4 : name ≠ "loop") :
    choose_dist name = ⟨none, true, true⟩ := by
  simp [choose_dist, h1, h2, h3, h4]

/-- Witness for C9 at the concrete unknown name "euclid". -/
theorem choose_dist_unknown_name_behavior_witness :
    ("euclid" ≠ "hamming" ∧ "euclid" ≠ "random" ∧ "euclid" ≠ "basepair" ∧
      "euclid" ≠ "loop") ∧ choose_dist "euclid" = ⟨none, true, true⟩ :=
  ⟨⟨by decide, by decide, by decide, by decide⟩,
    choose_dist_unknown_name_behavior "euclid" (by decide) (by decide)
      (by decide) (by decide)⟩

/-- Counterexample for C9 as stated: on the unknown name "bogus" the
selection does fold the aptamer (contradicting "no folding performed on
the failing path") and returns without any error value. -/
theorem choose_dist_unknown_folds_and_returns_none :
    (choose_dist "bogus").folded = true ∧
      (choose_dist "bogus").scorer = none ∧
      (choose_dist "bogus").folded ≠ false := by decide

/-- C10: the legacy entry point slices the cycle-number probabilities from
record slots 3 and beyond; on a documented 3-field record the slice is
empty, so for any positive cycle count the discrete-distribution
construction fails (array lengths differ and the probabilities sum to 0,
not 1). -/
theorem legacy_cycle_distribution_fails_on_three_field_records
    (rec : List ℚ) (N : ℕ) (hrec : rec.length = 3) (_hN : 1 ≤ N) :
    cycleNumProbsOf rec = [] ∧ legacyCycleDist N rec = none := by
  have hdrop : cycleNumProbsOf rec = [] := by
    simp [cycleNumProbsOf, List.drop_eq_nil_iff, hrec]
  refine ⟨hdrop, ?_⟩
  simp [legacyCycleDist, rv_discrete, hdrop]

/-- Witness for C10: the 3-field record `[5, 0, 0]` with 2 PCR cycles. -/
theorem legacy_cycle_distribution_fails_witness :
    ([5, 0, 0] : List ℚ).length = 3 ∧ (1 : ℕ) ≤ 2 ∧
      cycleNumProbsOf [5, 0, 0] = [] ∧ legacyCycleDist 2 [5, 0, 0] = none :=
  ⟨by decide, by decide,
    (legacy_cycle_distribution_fails_on_three_field_records [5, 0, 0] 2
      (by decide) (by decide)).1,
    (legacy_cycle_distribution_fails_on_three_field_records [5, 0, 0] 2
      (by decide) (by decide)).2⟩

/-- `getD` at the index a `set` wrote. -/
theorem getD_set_self (l : List ℚ) (i : ℕ) (v : ℚ) (h : i < l.length) :
    (l.set i v).getD i 0 = v := by
  rw [List.getD_eq_getElem _ _ (by simpa using h)]
  simp [List.getElem_set]

/-- `getD` at an index a `set` did not write. -/
theorem getD_set_ne (l : List ℚ) (i j : ℕ) (v : ℚ) (h : i ≠ j) :
    (l.set i v).getD j 0 = l.getD j 0 := by
  simp [List.getD, List.getElem?_set_ne h]

/-- Folding `bucketBump` over a list of draw values adds, at each index,
the number of occurrences of that index among the draws. -/
theorem foldl_bucketBump_getD :
    ∀ (ms : List ℕ) (a : List ℚ) (i : ℕ), i < a.length →
      (∀ m ∈ ms, m < a.length) →
      (ms.foldl bucketBump a).getD i 0 = a.getD i 0 + (ms.count i : ℚ)
  | [], a, i, _, _ => by simp
  | m :: ms, a, i, hi, hm => by
      have hmlt : m < a.length := hm m (List.mem_cons_self m ms)
      have hlen : (bucketBump a m).length = a.length := by simp [bucketBump]
      rw [List.foldl_cons,
        foldl_bucketBump_getD ms (bucketBump a m) i (by omega)
          (fun x hx => by
            have := hm x (List.mem_cons_of_mem _ hx)
            omega)]
      by_cases h : m = i
      · subst h
        rw [bucketBump, getD_set_self a m _ hmlt, List.count_cons_self]
        push_cast
        ring
      · rw [bucketBump, getD_set_ne a m i _ h,
          List.count_cons_of_ne (fun hh => h hh.symm)]

/-- The sampling accumulation at a positive bucket index adds the number
of Poisson draws equal to that index. -/
theorem samplingAccum_getD_pos (a : List ℚ) (muts : List ℕ) (i : ℕ)
    (hi : i < a.length) (h0 : i ≠ 0) (hm : ∀ m ∈ muts, m < a.length) :
    (samplingAccum a muts).getD i 0 = a.getD i 0 + (muts.count i : ℚ) := by
  rw [samplingAccum,
    foldl_bucketBump_getD _ _ _ hi
      (fun x hx => hm x (List.mem_of_mem_filter hx)),
    List.count_filter (by simpa using h0)]

/-- C4: the `mutatedPool` array is threaded through the wild-type loop:
appending one more sequence transforms the current array state; a
sampling-branch sequence adds its own draw buckets on top of the incoming
state (so the frequencies it is processed with depend on earlier
sequences, as the concrete inequality shows); a bulk-branch sequence
overwrites the array, ignoring the incoming state. -/
theorem mutatedPool_accumulates_across_sequences :
    (∀ (L : ℕ) (a : List ℚ) (bs : List SeqBranch) (b : SeqBranch),
        mutatedPoolRun L a (bs ++ [b]) =
          mutatedPoolStep L (mutatedPoolRun L a bs) b) ∧
    (∀ (a : List ℚ) (muts : List ℕ) (i : ℕ), i < a.length → 1 ≤ i →
        (∀ m ∈ muts, m < a.length) →
        (samplingAccum a muts).getD i 0 = a.getD i 0 + (muts.count i : ℚ)) ∧
    (∀ (L : ℕ) (a a' : List ℚ) (probs : List ℚ) (pop : ℚ),
        mutatedPoolStep L a (.bulkSeq probs pop) =
          mutatedPoolStep L a' (.bulkSeq probs pop)) ∧
    (∃ a a' : List ℚ, a.length = 3 ∧ a'.length = 3 ∧
        samplingAccum a [1] ≠ samplingAccum a' [1]) := by
  refine ⟨fun L a bs b => by simp [mutatedPoolRun, List.foldl_append],
    fun a muts i hi h1 hm => samplingAccum_getD_pos a muts i hi (by omega) hm,
    fun L a a' probs pop => rfl,
    ⟨[0, 0, 0], [0, 5, 0], by decide, by decide, ?_⟩⟩
  norm_num [samplingAccum, bucketBump]

/-- Witness for C4: the array `[0,0,0]` processed with draws `[1,2]` holds
frequency 1 at bucket 1. -/
theorem mutatedPool_accumulates_witness :
    (1 : ℕ) < ([0, 0, 0] : List ℚ).length ∧ (1 : ℕ) ≤ 1 ∧
      (∀ m ∈ [1, 2], m < ([0, 0, 0] : List ℚ).length) ∧
      (samplingAccum [0, 0, 0] [1, 2]).getD 1 0 =
        ([0, 0, 0] : List ℚ).getD 1 0 + (([1, 2].count 1 : ℕ) : ℚ) :=
  ⟨by decide, by decide, by decide,
    mutatedPool_accumulates_across_sequences.2.1 [0, 0, 0] [1, 2] 1
      (by decide) (by decide) (by decide)⟩


/-- Evaluating a copy-count bump at the bumped key. -/
theorem poolBump_self (p : Pool) (i : ℤ) (v : ℚ) (r : List ℚ)
    (h : p i = some r) :
    poolBump p i v i = some (r.set 0 (r.getD 0 0 + v)) := by
  simp [poolBump, h]

/-- Evaluating a copy-count bump at any other key. -/
theorem poolBump_other (p : Pool) (i j : ℤ) (v : ℚ) (h : j ≠ i) :
    poolBump p i v j = p j := by
  simp [poolBump, h]

/-- Evaluating a record insert at the inserted key. -/
theorem poolSet_self (p : Pool) (i : ℤ) (r : List ℚ) :
    poolSet p i r i = some r := by
  simp [poolSet]

/-- Evaluating a record insert at any other key. -/
theorem poolSet_other (p : Pool) (i j : ℤ) (r : List ℚ) (h : j ≠ i) :
    poolSet p i r j = p j := by
  simp [poolSet, h]

/-- Setting slot 0 keeps a record nonempty. -/
theorem set_zero_ne_nil (l : List ℚ) (v : ℚ) (h : l ≠ []) :
    l.set 0 v ≠ [] := by
  cases l with
  | nil => exact absurd rfl h
  | cons x t => simp

/-- Bumping slot 0 of a nonempty record by `v` yields slot 0 equal to the
old value plus `v`. -/
theorem getD_set_zero_add (r : List ℚ) (v : ℚ) (h : r ≠ []) :
    (r.set 0 (r.getD 0 0 + v)).getD 0 0 = r.getD 0 0 + v := by
  cases r with
  | nil => exact absurd rfl h
  | cons x t => rfl

/-- A fine-grained mutation event with zero remaining PCR cycles, on a
pool already holding both records: the mutant record gains exactly 1 and
the wild-type record loses exactly 1. -/
theorem fineCopyEvent_zero_cycles (cyc : ℕ) (dM dW : ℕ → ℤ)
    (wildIdx mutIdx : ℤ) (d b : ℚ) (p : Pool) (mr wr : List ℚ)
    (hne : mutIdx ≠ wildIdx) (hm : p mutIdx = some mr)
    (hw : p wildIdx = some wr) :
    (fineCopyEvent 0 cyc dM dW wildIdx mutIdx d b p) mutIdx =
        some (mr.set 0 (mr.getD 0 0 + 1)) ∧
      (fineCopyEvent 0 cyc dM dW wildIdx mutIdx d b p) wildIdx =
        some (wr.set 0 (wr.getD 0 0 + (-1))) := by
  have hsome : (p mutIdx).isSome = true := by rw [hm]; rfl
  have hcnt : branchCounts dM dW (0 - cyc) = (1, 1) := by
    rw [Nat.zero_sub]
    rfl
  have hbody : fineCopyEvent 0 cyc dM dW wildIdx mutIdx d b p =
      poolBump (poolBump p mutIdx 1) wildIdx (-1) := by
    rw [fineCopyEvent, hcnt]
    simp [hsome]
  rw [hbody]
  constructor
  · rw [poolBump_other _ _ _ _ hne, poolBump_self p mutIdx 1 mr hm]
  · rw [poolBump_self _ wildIdx (-1) wr
      (by rw [poolBump_other _ _ _ _ (Ne.symm hne)]; exact hw)]

/-- Iterating the zero-cycle fine-grained event `f` times over a pool that
already holds both records moves exactly `f` copies: slot 0 of the mutant
record grows by `f` and slot 0 of the wild-type record shrinks by `f`. -/
theorem fineCopies_zero_cycles_present :
    ∀ (f : ℕ) (cycOf : ℕ → ℕ) (dM dW : ℕ → ℕ → ℤ) (wildIdx mutIdx : ℤ)
      (d b : ℚ) (p : Pool) (mr wr : List ℚ), mutIdx ≠ wildIdx →
      p mutIdx = some mr → p wildIdx = some wr → mr ≠ [] → wr ≠ [] →
      ∃ mr' wr',
        (fineCopies 0 cycOf dM dW wildIdx mutIdx d b f p) mutIdx = some mr' ∧
        (fineCopies 0 cycOf dM dW wildIdx mutIdx d b f p) wildIdx = some wr' ∧
        mr'.getD 0 0 = mr.getD 0 0 + f ∧ wr'.getD 0 0 = wr.getD 0 0 - f
  | 0, cycOf, dM, dW, wildIdx, mutIdx, d, b, p, mr, wr, hne, hm, hw, _, _ =>
      ⟨mr, wr, hm, hw, by simp, by simp⟩
  | f + 1, cycOf, dM, dW, wildIdx, mutIdx, d, b, p, mr, wr, hne, hm, hw,
      hmne, hwne => by
    have hev := fineCopyEvent_zero_cycles (cycOf f) (dM f) (dW f) wildIdx
      mutIdx d b p mr wr hne hm hw
    have hmne' := set_zero_ne_nil mr (mr.getD 0 0 + 1) hmne
    have hwne' := set_zero_ne_nil wr (wr.getD 0 0 + (-1)) hwne
    obtain ⟨mr', wr', h1, h2, h3, h4⟩ :=
      fineCopies_zero_cycles_present f cycOf dM dW wildIdx mutIdx d b
        (fineCopyEvent 0 (cycOf f) (dM f) (dW f) wildIdx mutIdx d b p)
        (mr.set 0 (mr.getD 0 0 + 1)) (wr.set 0 (wr.getD 0 0 + (-1)))
        hne hev.1 hev.2 hmne' hwne'
    refine ⟨mr', wr', h1, h2, ?_, ?_⟩
    · rw [h3, getD_set_zero_add mr 1 hmne]
      push_cast
      ring
    · rw [h4, getD_set_zero_add wr (-1) hwne]
      push_cast
      ring

/-- C2 (amended): for a fine-grained event with `pcrCycleNum = 0`
processing `f ≥ 1` copies toward a mutant id new to the pool, the
wild-type entry is depleted by exactly `f`, but the new mutant id is
inserted with copy count 1 (not 0) together with its distance and bias
scores before receiving the branching result, so the fresh mutant entry
ends at `f + 1`. -/
theorem fine_event_zero_cycles_counts (cycOf : ℕ → ℕ) (dM dW : ℕ → ℕ → ℤ)
    (wildIdx mutIdx : ℤ) (d b : ℚ) (f : ℕ) (p : Pool) (wr : List ℚ)
    (hne : mutIdx ≠ wildIdx) (hmut : p mutIdx = none)
    (hw : p wildIdx = some wr) (hwne : wr ≠ []) (hf : 1 ≤ f) :
    ((fineCopies 0 cycOf dM dW wildIdx mutIdx d b f p) mutIdx).map
        (fun r => r.getD 0 0) = some ((f : ℚ) + 1) ∧
      ((fineCopies 0 cycOf dM dW wildIdx mutIdx d b f p) wildIdx).map
        (fun r => r.getD 0 0) = some (wr.getD 0 0 - f) := by
  obtain ⟨k, rfl⟩ : ∃ k, f = k + 1 := ⟨f - 1, by omega⟩
  have hnotsome : (p mutIdx).isSome = false := by rw [hmut]; rfl
  have hcnt : branchCounts (dM k) (dW k) (0 - cycOf k) = (1, 1) := by
    rw [Nat.zero_sub]
    rfl
  have hbody : fineCopyEvent 0 (cycOf k) (dM k) (dW k) wildIdx mutIdx d b p =
      poolBump (poolBump (poolSet p mutIdx [1, d, b]) mutIdx 1) wildIdx
        (-1) := by
    rw [fineCopyEvent, hcnt]
    simp [hnotsome]
  have hev1 : (fineCopyEvent 0 (cycOf k) (dM k) (dW k) wildIdx mutIdx d b p)
      mutIdx = some ([1, d, b].set 0 (1 + 1)) := by
    rw [hbody, poolBump_other _ _ _ _ hne,
      poolBump_self _ mutIdx 1 [1, d, b] (poolSet_self p mutIdx [1, d, b])]
    norm_num
  have hev2 : (fineCopyEvent 0 (cycOf k) (dM k) (dW k) wildIdx mutIdx d b p)
      wildIdx = some (wr.set 0 (wr.getD 0 0 + (-1))) := by
    rw [hbody, poolBump_self _ wildIdx (-1) wr
      (by rw [poolBump_other _ _ _ _ (Ne.symm hne),
        poolSet_other _ _ _ _ (Ne.symm hne)]; exact hw)]
  obtain ⟨mr', wr', h1, h2, h3, h4⟩ :=
    fineCopies_zero_cycles_present k cycOf dM dW wildIdx mutIdx d b
      (fineCopyEvent 0 (cycOf k) (dM k) (dW k) wildIdx mutIdx d b p)
      ([1, d, b].set 0 (1 + 1)) (wr.set 0 (wr.getD 0 0 + (-1)))
      hne hev1 hev2 (by simp)
      (set_zero_ne_nil wr (wr.getD 0 0 + (-1)) hwne)
  have hstep : fineCopies 0 cycOf dM dW wildIdx mutIdx d b (k + 1) p =
      fineCopies 0 cycOf dM dW wildIdx mutIdx d b k
        (fineCopyEvent 0 (cycOf k) (dM k) (dW k) wildIdx mutIdx d b p) :=
    rfl
  rw [hstep, h1, h2]
  constructor
  · simp only [Option.map_some']
    rw [h3]
    have hgd : (([1, d, b] : List ℚ).set 0 (1 + 1)).getD 0 0 = 2 := by
      show (1 + 1 : ℚ) = 2
      norm_num
    rw [hgd]
    push_cast
    ring_nf
  · simp only [Option.map_some']
    rw [h4, getD_set_zero_add wr (-1) hwne]
    push_cast
    ring_nf

/-- Witness for C2: four copies, mutant id 3 fresh, wild-type id 7 holding
100 copies; the mutant entry ends at 5 and the wild-type at 96. -/
theorem fine_event_zero_cycles_counts_witness :
    (3 : ℤ) ≠ 7 ∧
      ((fineCopies 0 (fun _ => 0) (fun _ _ => 0) (fun _ _ => 0) 7 3 0 0 4
          (fun j => if j = 7 then some [100, 0, 0] else none)) 3).map
          (fun r => r.getD 0 0) = some (((4 : ℕ) : ℚ) + 1) ∧
      ((fineCopies 0 (fun _ => 0) (fun _ _ => 0) (fun _ _ => 0) 7 3 0 0 4
          (fun j => if j = 7 then some [100, 0, 0] else none)) 7).map
          (fun r => r.getD 0 0) =
        some (([100, 0, 0] : List ℚ).getD 0 0 - ((4 : ℕ) : ℚ)) :=
  ⟨by decide,
    (fine_event_zero_cycles_counts (fun _ => 0) (fun _ _ => 0) (fun _ _ => 0)
        7 3 0 0 4 (fun j => if j = 7 then some [100, 0, 0] else none)
        [100, 0, 0] (by decide) rfl rfl (by simp) (by norm_num)).1,
    (fine_event_zero_cycles_counts (fun _ => 0) (fun _ _ => 0) (fun _ _ => 0)
        7 3 0 0 4 (fun j => if j = 7 then some [100, 0, 0] else none)
        [100, 0, 0] (by decide) rfl rfl (by simp) (by norm_num)).2⟩

/-- Counterexample for C2 as stated: one zero-cycle fine-grained event on
a fresh mutant id leaves the mutant entry at copy count 2, not the 1 the
claim's "insert `[0, distance, bias]` then add the branching result"
accounting predicts. -/
theorem fine_event_new_mutant_starts_at_one :
    ((fineCopyEvent 0 0 (fun _ => 0) (fun _ => 0) 7 3 0 0
        (fun j => if j = 7 then some [100, 0, 0] else none)) 3).map
        (fun r => r.getD 0 0) = some 2 ∧ (2 : ℚ) ≠ 1 := by
  constructor
  · norm_num [fineCopyEvent, poolBump, poolSet, branchCounts]
  · norm_num

/-- `MonoAt` is reflexive. -/
theorem monoAt_refl (k : ℤ) (p : Pool) : MonoAt k p p :=
  fun r h => ⟨r, h, le_refl _⟩

/-- `MonoAt` is transitive. -/
theorem monoAt_trans (k : ℤ) (p q s : Pool) (h1 : MonoAt k p q)
    (h2 : MonoAt k q s) : MonoAt k p s := by
  intro r hr
  obtain ⟨r', hr', hle⟩ := h1 r hr
  obtain ⟨r'', hr'', hle'⟩ := h2 r' hr'
  exact ⟨r'', hr'', le_trans hle hle'⟩

/-- Truncation of a non-negative rational is non-negative. -/
theorem pyInt_nonneg (q : ℚ) (h : 0 ≤ q) : 0 ≤ pyInt q := by
  rw [pyInt, if_neg (by linarith)]
  exact Int.floor_nonneg.mpr h

/-- Slot 0 does not decrease when bumped by a non-negative amount. -/
theorem getD_set_zero_mono (r : List ℚ) (v : ℚ) (h : 0 ≤ v) :
    r.getD 0 0 ≤ (r.set 0 (r.getD 0 0 + v)).getD 0 0 := by
  cases r with
  | nil => simp
  | cons x t =>
      show x ≤ x + v
      linarith

/-- A non-negative bump preserves copy-count monotonicity at every key. -/
theorem monoAt_poolBump_nonneg (k i : ℤ) (v : ℚ) (p : Pool) (h : 0 ≤ v) :
    MonoAt k p (poolBump p i v) := by
  intro r hr
  by_cases hk : k = i
  · subst hk
    refine ⟨r.set 0 (r.getD 0 0 + v), ?_, getD_set_zero_mono r v h⟩
    rw [poolBump]
    simp [hr]
  · exact ⟨r, by rw [poolBump_other _ _ _ _ hk]; exact hr, le_refl _⟩

/-- A bump at a different key preserves the record at `k` unchanged. -/
theorem monoAt_poolBump_other (k i : ℤ) (v : ℚ) (p : Pool) (h : k ≠ i) :
    MonoAt k p (poolBump p i v) :=
  fun r hr => ⟨r, by rw [poolBump_other _ _ _ _ h]; exact hr, le_refl _⟩

/-- Inserting a record at a key currently absent preserves monotonicity at
every key. -/
theorem monoAt_poolSet_of_none (k i : ℤ) (rec : List ℚ) (p : Pool)
    (h : p i = none) : MonoAt k p (poolSet p i rec) := by
  intro r hr
  by_cases hk : k = i
  · subst hk
    rw [h] at hr
    exact absurd hr (by simp)
  · exact ⟨r, by rw [poolSet_other _ _ _ _ hk]; exact hr, le_refl _⟩

/-- A fold preserves monotonicity at `k` when every step does. -/
theorem monoAt_foldl {α : Type} (k : ℤ) (f : Pool → α → Pool)
    (h : ∀ q a, MonoAt k q (f q a)) :
    ∀ (l : List α) (p : Pool), MonoAt k p (l.foldl f p)
  | [], p => monoAt_refl k p
  | a :: l, p =>
      monoAt_trans k p (f p a) (l.foldl f (f p a)) (h p a)
        (monoAt_foldl k f h l (f p a))

/-- The per-cycle transfer amounts of the bulk branch are non-negative
for non-negative probability, mutant-count estimate and yield. -/
theorem bulkCycleAmount_nonneg (N : ℕ) (y : ℚ) (imc : ℤ) (cy : ℕ)
    (prob : ℚ) (hy : 0 ≤ y) (himc : 0 ≤ imc) (hprob : 0 ≤ prob) :
    0 ≤ bulkCycleAmount N y imc cy prob := by
  refine pyInt_nonneg _ ?_
  have h1 : (0 : ℚ) ≤ (imc : ℚ) := by exact_mod_cast himc
  have h2 : (0 : ℚ) ≤ (1 + y) ^ (N - cy) := by positivity
  positivity

/-- The cycle fold of the bulk branch never decreases the copy count
stored at any key other than the wild-type's. -/
theorem monoAt_bulkCycleFold (k seqIdx mutIdx : ℤ) (N : ℕ) (y : ℚ)
    (imc : ℤ) (hk : k ≠ seqIdx) (hy : 0 ≤ y) (himc : 0 ≤ imc) :
    ∀ (cy : ℕ) (probs : List ℚ), (∀ q ∈ probs, 0 ≤ q) → ∀ p : Pool,
      MonoAt k p (bulkCycleFold N y imc mutIdx seqIdx cy probs p)
  | _, [], _, p => monoAt_refl k p
  | cy, prob :: rest, hprobs, p => by
      have hamt : (0 : ℚ) ≤ (bulkCycleAmount N y imc cy prob : ℚ) := by
        exact_mod_cast bulkCycleAmount_nonneg N y imc cy prob hy himc
          (hprobs prob (List.mem_cons_self _ _))
      refine monoAt_trans k p _ _ ?_
        (monoAt_bulkCycleFold k seqIdx mutIdx N y imc hk hy himc (cy + 1)
          rest (fun q hq => hprobs q (List.mem_cons_of_mem _ hq)) _)
      refine monoAt_trans k p _ _
        (monoAt_poolBump_nonneg k mutIdx _ p hamt) ?_
      exact monoAt_poolBump_other k seqIdx _ _ hk

/-- One (position, nucleotide) variant step of the bulk branch never
decreases the copy count stored at any key other than the wild-type's. -/
theorem monoAt_bulkVariantStep (k : ℤ) (L N : ℕ) (y : ℚ)
    (mdScore biasScore : ℤ → ℚ) (seqIdx : ℤ) (imc : ℤ) (probs : List ℚ)
    (seqPos oni mni : ℕ) (p : Pool) (hk : k ≠ seqIdx) (hy : 0 ≤ y)
    (himc : 0 ≤ imc) (hprobs : ∀ q ∈ probs, 0 ≤ q) :
    MonoAt k p (bulkVariantStep L N y mdScore biasScore seqIdx imc probs
      seqPos oni mni p) := by
  simp only [bulkVariantStep]
  by_cases hsame : mni = oni
  · rw [if_pos hsame]
    exact monoAt_refl k p
  · rw [if_neg hsame]
    set mutIdx := seqIdx + 4 ^ (L - seqPos - 1) * ((mni : ℤ) - (oni : ℤ))
      with hmutIdx
    by_cases habs : (p mutIdx).isSome
    · rw [if_pos habs]
      exact monoAt_bulkCycleFold k seqIdx mutIdx N y imc hk hy himc 0 probs
        hprobs p
    · rw [if_neg habs]
      exact monoAt_trans k p
        (poolSet p mutIdx [0, mdScore mutIdx, biasScore mutIdx]) _
        (monoAt_poolSet_of_none k mutIdx
          [0, mdScore mutIdx, biasScore mutIdx] p
          (by rwa [← Option.not_isSome_iff_eq_none]))
        (monoAt_bulkCycleFold k seqIdx mutIdx N y imc hk hy himc 0 probs
          hprobs _)

/-- C7 (amended): a bulk-branch update (either entry point) only ever
increases the copy counts of mutant entries - every key other than the
wild-type's keeps a copy count at least as large as before - but no
clamping exists and the wild-type entry itself can be driven negative, as
the companion counterexample shows. -/
theorem bulk_event_mutant_counts_monotone (L N : ℕ) (y : ℚ)
    (mdScore biasScore : ℤ → ℚ) (seqArr : List ℕ) (seqIdx : ℤ)
    (mutFreq : ℤ) (probs : List ℚ) (p : Pool) (k : ℤ)
    (hy : 0 ≤ y) (hf : 0 ≤ mutFreq) (hprobs : ∀ q ∈ probs, 0 ≤ q)
    (hk : k ≠ seqIdx) :
    MonoAt k p
      (bulkEvent L N y mdScore biasScore seqArr seqIdx mutFreq probs p) := by
  have himc : 0 ≤ initialMutCount L mutFreq := by
    refine pyInt_nonneg _ ?_
    have h1 : (0 : ℚ) ≤ (mutFreq : ℚ) := by exact_mod_cast hf
    positivity
  rw [bulkEvent]
  refine monoAt_foldl k _ (fun q seqPos => ?_) (List.range L) p
  refine monoAt_foldl k _ (fun q2 mni => ?_) (List.range 4) q
  exact monoAt_bulkVariantStep k L N y mdScore biasScore seqIdx _ probs
    seqPos _ mni q2 hk hy himc hprobs

/-- Witness for C7: monotonicity at mutant key 5 for a concrete bulk
event (L = 2, N = 1, yield 1/2, frequency 20000, one cycle probability). -/
theorem bulk_event_mutant_counts_monotone_witness :
    (0 : ℚ) ≤ 1/2 ∧ (0 : ℤ) ≤ 20000 ∧ (∀ q ∈ ([1] : List ℚ), 0 ≤ q) ∧
      (5 : ℤ) ≠ 0 ∧
      MonoAt 5 (fun j => if j = 0 then some [20000, 0, 0, 1] else none)
        (bulkEvent 2 1 (1/2) (fun _ => 0) (fun _ => 0) [0, 0] 0 20000 [1]
          (fun j => if j = 0 then some [20000, 0, 0, 1] else none)) :=
  ⟨by norm_num, by decide, by simp, by decide,
    bulk_event_mutant_counts_monotone 2 1 (1/2) (fun _ => 0) (fun _ => 0)
      [0, 0] 0 20000 [1]
      (fun j => if j = 0 then some [20000, 0, 0, 1] else none) 5
      (by norm_num) (by decide) (by simp) (by decide)⟩

/-- Counterexample for C7 as stated: the bulk branch applied to the
wild-type sequence 0 (record `[20000, 0, 0, 1]`, so copy count 20000 and
one recorded cycle probability 1) with L = 2, N = 1, yield 1/2 and bucket
frequency 20000 subtracts 4995 per variant for 6 variants and leaves the
wild-type copy count at -9970 < 0 when the update returns - no clamping
takes place. -/
theorem bulk_event_wild_type_negative :
    ((bulkEvent 2 1 (1/2) (fun _ => 0) (fun _ => 0) [0, 0] 0 20000 [1]
        (fun j => if j = 0 then some [20000, 0, 0, 1] else none)) 0).map
      (fun r => r.getD 0 0) = some (-9970) ∧ (-9970 : ℚ) < 0 := by
  constructor
  · have himc : initialMutCount 2 20000 = 3330 := by
      norm_num [initialMutCount, pyInt]
    norm_num [bulkEvent, bulkVariantStep, bulkCycleFold, bulkCycleAmount,
      himc, pyInt, poolBump, poolSet, List.range_succ]
  · norm_num

/-- Sum of a mapped `List.range` as a `Finset.range` sum. -/
theorem list_range_map_sum (f : ℕ → ℝ) :
    ∀ n : ℕ, ((List.range n).map f).sum = ∑ i ∈ Finset.range n, f i
  | 0 => by simp
  | n + 1 => by
      rw [List.range_succ, List.map_append, List.sum_append,
        Finset.sum_range_succ, list_range_map_sum f n]
      simp

/-- C5 (amended): the simplified Poisson vector always sums to at most 1,
the deficit being the Poisson tail mass beyond `L`; the sum is within
1e-9 of 1 whenever `L * e ≤ 1` and `L ≥ 12` (in particular for realistic
per-base error rates), but not for every valid `(L, e)` - see the
companion counterexample. -/
theorem poisson_vector_sum_bounds (L : ℕ) (e : ℝ) (hL : 1 ≤ L)
    (he : 0 ≤ e) :
    (poissonProbs L e).sum ≤ 1 ∧
      ((L : ℝ) * e ≤ 1 → 12 ≤ L →
        1 - (1 : ℝ) / 1000000000 ≤ (poissonProbs L e).sum) := by
  have hlam : (0 : ℝ) ≤ (L : ℝ) * e := by positivity
  have hsum : (poissonProbs L e).sum =
      Real.exp (-((L : ℝ) * e)) *
        ∑ m ∈ Finset.range (L + 1), ((L : ℝ) * e) ^ m / m.factorial := by
    rw [poissonProbs, list_range_map_sum, Finset.mul_sum]
    refine Finset.sum_congr rfl fun m _ => ?_
    ring
  have hT : ∑ m ∈ Finset.range (L + 1), ((L : ℝ) * e) ^ m / m.factorial ≤
      Real.exp ((L : ℝ) * e) := Real.sum_le_exp_of_nonneg hlam (L + 1)
  have hTnn : 0 ≤ ∑ m ∈ Finset.range (L + 1),
      ((L : ℝ) * e) ^ m / m.factorial := by
    refine Finset.sum_nonneg fun m _ => ?_
    positivity
  have hprod : Real.exp (-((L : ℝ) * e)) * Real.exp ((L : ℝ) * e) = 1 := by
    rw [← Real.exp_add, neg_add_cancel, Real.exp_zero]
  constructor
  · rw [hsum]
    calc Real.exp (-((L : ℝ) * e)) *
        ∑ m ∈ Finset.range (L + 1), ((L : ℝ) * e) ^ m / m.factorial ≤
        Real.exp (-((L : ℝ) * e)) * Real.exp ((L : ℝ) * e) :=
          mul_le_mul_of_nonneg_left hT (Real.exp_pos _).le
      _ = 1 := hprod
  · intro hle1 hL12
    have habs : |(L : ℝ) * e| ≤ 1 := by rwa [abs_of_nonneg hlam]
    have hbound := Real.exp_bound habs (Nat.succ_pos L)
    simp only [Nat.succ_eq_add_one] at hbound
    have hpow1 : |(L : ℝ) * e| ^ (L + 1) ≤ 1 :=
      pow_le_one₀ (abs_nonneg _) habs
    have hfactpos : (0 : ℝ) < ((L + 1).factorial : ℝ) := by
      exact_mod_cast Nat.factorial_pos (L + 1)
    have h13fact : ((13 : ℕ).factorial : ℝ) ≤ ((L + 1).factorial : ℝ) := by
      exact_mod_cast Nat.factorial_le (by omega : (13 : ℕ) ≤ L + 1)
    have hfrac : (((L + 1 + 1 : ℕ)) : ℝ) /
        (((L + 1).factorial : ℝ) * ((L + 1 : ℕ) : ℝ)) ≤
        2 / ((13 : ℕ).factorial : ℝ) := by
      have hc1 : (((L + 1 + 1 : ℕ)) : ℝ) = (L : ℝ) + 2 := by push_cast; ring
      have hc2 : ((L + 1 : ℕ) : ℝ) = (L : ℝ) + 1 := by push_cast; ring
      rw [hc1, hc2, div_le_div_iff₀ (by positivity) (by positivity)]
      have hL12r : (12 : ℝ) ≤ (L : ℝ) := by exact_mod_cast hL12
      calc ((L : ℝ) + 2) * ((13 : ℕ).factorial : ℝ) ≤
          ((L : ℝ) + 2) * ((L + 1).factorial : ℝ) :=
            mul_le_mul_of_nonneg_left h13fact (by positivity)
        _ ≤ (2 * ((L : ℝ) + 1)) * ((L + 1).factorial : ℝ) :=
            mul_le_mul_of_nonneg_right (by linarith) hfactpos.le
        _ = 2 * (((L + 1).factorial : ℝ) * ((L : ℝ) + 1)) := by ring
    have hsmall : (2 : ℝ) / ((13 : ℕ).factorial : ℝ) ≤ 1 / 1000000000 := by
      norm_num [Nat.factorial]
    have hRHS : |(L : ℝ) * e| ^ (L + 1) *
        ((((L + 1 + 1 : ℕ)) : ℝ) /
          (((L + 1).factorial : ℝ) * ((L + 1 : ℕ) : ℝ))) ≤
        1 / 1000000000 := by
      have hfracnn : (0 : ℝ) ≤ (((L + 1 + 1 : ℕ)) : ℝ) /
          (((L + 1).factorial : ℝ) * ((L + 1 : ℕ) : ℝ)) := by positivity
      calc |(L : ℝ) * e| ^ (L + 1) *
          ((((L + 1 + 1 : ℕ)) : ℝ) /
            (((L + 1).factorial : ℝ) * ((L + 1 : ℕ) : ℝ))) ≤
          1 * ((((L + 1 + 1 : ℕ)) : ℝ) /
            (((L + 1).factorial : ℝ) * ((L + 1 : ℕ) : ℝ))) :=
            mul_le_mul_of_nonneg_right hpow1 hfracnn
        _ = (((L + 1 + 1 : ℕ)) : ℝ) /
            (((L + 1).factorial : ℝ) * ((L + 1 : ℕ) : ℝ)) := one_mul _
        _ ≤ 2 / ((13 : ℕ).factorial : ℝ) := hfrac
        _ ≤ 1 / 1000000000 := hsmall
    have htail : Real.exp ((L : ℝ) * e) -
        ∑ m ∈ Finset.range (L + 1), ((L : ℝ) * e) ^ m / m.factorial ≤
        1 / 1000000000 :=
      le_trans (le_trans (le_abs_self _) hbound) hRHS
    have hexpneg1 : Real.exp (-((L : ℝ) * e)) ≤ 1 := by
      rw [← Real.exp_zero]
      exact Real.exp_le_exp.mpr (by linarith)
    have htailnn : 0 ≤ Real.exp ((L : ℝ) * e) -
        ∑ m ∈ Finset.range (L + 1), ((L : ℝ) * e) ^ m / m.factorial := by
      linarith
    rw [hsum]
    have hrw : 1 - Real.exp (-((L : ℝ) * e)) *
        ∑ m ∈ Finset.range (L + 1), ((L : ℝ) * e) ^ m / m.factorial =
        Real.exp (-((L : ℝ) * e)) *
          (Real.exp ((L : ℝ) * e) -
            ∑ m ∈ Finset.range (L + 1), ((L : ℝ) * e) ^ m / m.factorial) := by
      rw [mul_sub, hprod]
    have hfin : Real.exp (-((L : ℝ) * e)) *
        (Real.exp ((L : ℝ) * e) -
          ∑ m ∈ Finset.range (L + 1), ((L : ℝ) * e) ^ m / m.factorial) ≤
        1 / 1000000000 := by
      calc Real.exp (-((L : ℝ) * e)) *
          (Real.exp ((L : ℝ) * e) -
            ∑ m ∈ Finset.range (L + 1), ((L : ℝ) * e) ^ m / m.factorial) ≤
          1 * (Real.exp ((L : ℝ) * e) -
            ∑ m ∈ Finset.range (L + 1), ((L : ℝ) * e) ^ m / m.factorial) :=
            mul_le_mul_of_nonneg_right hexpneg1 htailnn
        _ = Real.exp ((L : ℝ) * e) -
            ∑ m ∈ Finset.range (L + 1), ((L : ℝ) * e) ^ m / m.factorial :=
            one_mul _
        _ ≤ 1 / 1000000000 := htail
    linarith [hrw ▸ hfin]

/-- Witness for C5: at `L = 12`, `e = 0` both bounds hold. -/
theorem poisson_vector_sum_bounds_witness :
    (1 ≤ 12) ∧ ((0 : ℝ) ≤ 0) ∧
      ((poissonProbs 12 0).sum ≤ 1 ∧
        ((12 : ℝ) * 0 ≤ 1 → 12 ≤ 12 →
          1 - (1 : ℝ) / 1000000000 ≤ (poissonProbs 12 0).sum)) :=
  ⟨by norm_num, le_refl 0,
    poisson_vector_sum_bounds 12 0 (by norm_num) (le_refl 0)⟩

/-- Counterexample for C5 as stated: at the valid parameters `L = 1`,
`e = 0.99` the simplified Poisson vector sums to
`exp(-0.99) * 1.99 ≈ 0.89`, which is not within 1e-9 of 1. -/
theorem poisson_vector_sum_deficit_at_high_error :
    ¬ |(poissonProbs 1 (99 / 100)).sum - 1| ≤ 1 / 1000000000 := by
  have hsum : (poissonProbs 1 (99 / 100)).sum =
      Real.exp (-(99 / 100)) * (1 + 99 / 100) := by
    rw [poissonProbs]
    norm_num [List.range_succ, Nat.factorial]
    ring
  have h1 : (1.495 : ℝ) ≤ Real.exp 0.495 := by
    have := Real.add_one_le_exp (0.495 : ℝ)
    linarith
  have h2 : Real.exp (0.99 : ℝ) = Real.exp 0.495 * Real.exp 0.495 := by
    rw [← Real.exp_add]
    norm_num
  have h3 : (2.235025 : ℝ) ≤ Real.exp 0.99 := by
    nlinarith [Real.exp_pos (0.495 : ℝ)]
  have h4 : Real.exp (-(99 / 100 : ℝ)) = (Real.exp (99 / 100))⁻¹ :=
    Real.exp_neg _
  have h5 : (99 / 100 : ℝ) = 0.99 := by norm_num
  have hS : (poissonProbs 1 (99 / 100)).sum < 1 - 1 / 1000000000 := by
    rw [hsum, h4, h5]
    have hpos : (0 : ℝ) < Real.exp 0.99 := Real.exp_pos _
    rw [inv_mul_eq_div, div_lt_iff₀ hpos]
    nlinarith
  intro h
  rw [abs_le] at h
  have := h.1
  linarith

/-- Each cycle contribution of the PCR-aware model is non-negative for
non-negative error rate and yield. -/
theorem pcrTerm_nonneg (L N n k : ℕ) (e y : ℝ) (he : 0 ≤ e) (hy : 0 ≤ y) :
    0 ≤ Real.exp (-((n : ℝ) * e * L)) * ((n : ℝ) * e * L) ^ k *
        (Nat.factorial N) * y ^ n /
      ((Nat.factorial k) * (Nat.factorial n) * (Nat.factorial (N - n)) *
        (1 + y) ^ n) := by
  have hbase : (0 : ℝ) ≤ (n : ℝ) * e * L := by
    have hn : (0 : ℝ) ≤ (n : ℝ) := Nat.cast_nonneg n
    have hLr : (0 : ℝ) ≤ (L : ℝ) := Nat.cast_nonneg L
    exact mul_nonneg (mul_nonneg hn he) hLr
  have h1 : (0 : ℝ) ≤ Real.exp (-((n : ℝ) * e * L)) := (Real.exp_pos _).le
  have h2 : (0 : ℝ) ≤ ((n : ℝ) * e * L) ^ k := pow_nonneg hbase k
  have h3 : (0 : ℝ) ≤ ((Nat.factorial N : ℕ) : ℝ) := Nat.cast_nonneg _
  have h4 : (0 : ℝ) ≤ y ^ n := pow_nonneg hy n
  have h5 : (0 : ℝ) ≤ ((Nat.factorial k : ℕ) : ℝ) *
      ((Nat.factorial n : ℕ) : ℝ) * ((Nat.factorial (N - n) : ℕ) : ℝ) *
      (1 + y) ^ n := by
    refine mul_nonneg (mul_nonneg (mul_nonneg ?_ ?_) ?_) ?_
    · exact Nat.cast_nonneg _
    · exact Nat.cast_nonneg _
    · exact Nat.cast_nonneg _
    · exact pow_nonneg (by linarith) n
  exact div_nonneg (mul_nonneg (mul_nonneg (mul_nonneg h1 h2) h3) h4) h5

/-- Slots 1..L of the PCR-aware vector are non-negative for non-negative
error rate and yield. -/
theorem pcrSlot_nonneg (L N : ℕ) (e y : ℝ) (he : 0 ≤ e) (hy : 0 ≤ y)
    (k : ℕ) : 0 ≤ pcrSlot L N e y k := by
  rw [pcrSlot]
  exact Finset.sum_nonneg fun n _ => pcrTerm_nonneg L N n k e y he hy

/-- C6 (amended): for non-negative error rate and yield, the PCR-aware
vector has length L + 1, sums to exactly 1 (slot 0 is one minus the other
slots by construction), and its slots 1..L are non-negative - but slot 0
itself can be negative, as the companion counterexample shows, so the
vector is not always entrywise non-negative. -/
theorem pcr_vector_shape (L N : ℕ) (e y : ℝ) (he : 0 ≤ e) (hy : 0 ≤ y) :
    (pcrVec L N e y).length = L + 1 ∧
      (pcrVec L N e y).sum = 1 ∧
      ∀ m, m < L → 0 ≤ pcrSlot L N e y (m + 1) := by
  refine ⟨by simp [pcrVec], ?_,
    fun m _ => pcrSlot_nonneg L N e y he hy (m + 1)⟩
  rw [pcrVec, List.sum_cons]
  ring

/-- Witness for C6: the shape facts at `L = 1`, `N = 1`, `e = 0`,
`y = 0`. -/
theorem pcr_vector_shape_witness :
    ((0 : ℝ) ≤ 0) ∧
      ((pcrVec 1 1 0 0).length = 1 + 1 ∧ (pcrVec 1 1 0 0).sum = 1 ∧
        ∀ m, m < 1 → 0 ≤ pcrSlot 1 1 0 0 (m + 1)) :=
  ⟨le_refl 0, pcr_vector_shape 1 1 0 0 (le_refl 0) (le_refl 0)⟩

/-- Counterexample for C6 as stated: at the valid parameters `L = 2`,
`N = 5`, `e = 0.5`, `y = 0.9` the accumulated slots 1..2 already exceed 1
(their n = 1 contributions alone are `exp(-1) * 135/38 > 1`), so slot 0,
computed as 1 minus that sum, is negative. -/
theorem pcr_vector_slot_zero_negative :
    (pcrVec 2 5 (1/2) (9/10)).getD 0 0 < 0 := by
  have hhead : (pcrVec 2 5 (1/2) (9/10)).getD 0 0 =
      1 - (pcrSlot 2 5 (1/2) (9/10) 1 + pcrSlot 2 5 (1/2) (9/10) 2) := by
    rw [pcrVec]
    norm_num [List.range_succ]
  have hterm : ∀ k : ℕ,
      Real.exp (-(((1 : ℕ) : ℝ) * (1/2) * ((2 : ℕ) : ℝ))) *
          ((((1 : ℕ) : ℝ)) * (1/2) * ((2 : ℕ) : ℝ)) ^ k *
          ((Nat.factorial 5 : ℕ) : ℝ) * (9/10 : ℝ) ^ (1 : ℕ) /
        (((Nat.factorial k : ℕ) : ℝ) * ((Nat.factorial 1 : ℕ) : ℝ) *
          ((Nat.factorial (5 - 1) : ℕ) : ℝ) * ((1 : ℝ) + 9/10) ^ (1 : ℕ)) ≤
        pcrSlot 2 5 (1/2) (9/10) k := by
    intro k
    rw [pcrSlot]
    exact Finset.single_le_sum
      (fun i _ => pcrTerm_nonneg 2 5 i k (1/2) (9/10) (by norm_num)
        (by norm_num))
      (by decide)
  have hc : (-(((1 : ℕ) : ℝ) * (1/2) * ((2 : ℕ) : ℝ))) = (-1 : ℝ) := by
    push_cast
    norm_num
  have h1 := hterm 1
  have h2 := hterm 2
  rw [hc] at h1 h2
  have he1 : Real.exp (-(((1 : ℕ) : ℝ) * (1/2) * ((2 : ℕ) : ℝ))) =
      Real.exp (-1 : ℝ) := by rw [hc]
  have h1' : Real.exp (-1 : ℝ) * (45/19) ≤ pcrSlot 2 5 (1/2) (9/10) 1 := by
    refine le_trans (le_of_eq ?_) h1
    norm_num [Nat.factorial]
    ring
  have h2' : Real.exp (-1 : ℝ) * (45/38) ≤ pcrSlot 2 5 (1/2) (9/10) 2 := by
    refine le_trans (le_of_eq ?_) h2
    norm_num [Nat.factorial]
    ring
  have hE : Real.exp (-1 : ℝ) * Real.exp 1 = 1 := by
    rw [← Real.exp_add]
    norm_num
  have hEpos : (0 : ℝ) < Real.exp (-1 : ℝ) := Real.exp_pos _
  have hE9 := Real.exp_one_lt_d9
  rw [hhead]
  nlinarith [h1', h2', hE, hEpos, hE9]
